import Mathlib

/-!
Formal model of the expression-evaluation core of the `abhisakh/Calculator`
repository.

Modelled source:
* `src/calculator.py` — `preprocess_expression` (the phrase normalizer built
  from a fixed sequence of `re.sub` passes), `evaluate_expression` (assignment
  detection, restricted `eval` over the merged `safe_functions`/`variables`
  scope, error classification) and the `safe_functions` registry.
* `src/main.py` — `split_expression` and `calculate` of the fixed-operator
  CLI variant.

Modelling conventions:
* Python strings are modelled as `List Char` (wrapped in `String` at the
  interfaces); the ASCII fragment that the calculator's surface exercises.
* Python floats are modelled as exact rationals (`ℚ`).  Every concrete value
  a theorem below computes (`sqrt(16)`, `2 ** 5`, integer division results)
  is exactly representable, so the idealisation is faithful where it is used.
* The host evaluator (`eval`) is modelled by a tokenizer, a parser and an
  interpreter for the expression fragment reachable from the calculator:
  numeric literals, names, `+ - * / // % **`, unary minus, `==`, calls,
  parentheses/tuples and attribute access (the object protocol exposes
  `__class__` on every value, which is the first link of the well-known
  sandbox-escape chain).  Fallible steps return `Except`, mirroring the
  `try/except` recovery in `evaluate_expression`.
* Mutable module-level state (`variables`) is modelled by explicit state
  passing: `evaluate_expression` takes and returns the variable table.
-/

namespace Calculator

/-- Python's regex word character `\w` (ASCII fragment): `[a-zA-Z0-9_]`. -/
def wordChar (c : Char) : Bool := c.isAlpha || c.isDigit || c = '_'

/-- Python whitespace as used by `str.split()` / `str.strip()`. -/
def pySpace (c : Char) : Bool :=
  c = ' ' || c = '\t' || c = '\n' || c = '\x0d' || c = '\x0b' || c = '\x0c'

/-- `str.lower()` on the ASCII fragment. -/
def lowerStr (s : List Char) : List Char := s.map Char.toLower

/-- Left-hand side of a `\b` boundary for a pattern that starts with a word
character: the previous character (if any) must not be a word character. -/
def bdryL : Option Char → Bool
  | none => true
  | some c => !wordChar c

/-- Right-hand side of a `\b` boundary for a pattern that ends with a word
character: the next character (if any) must not be a word character. -/
def bdryR : List Char → Bool
  | [] => true
  | c :: _ => !wordChar c

/-- Does the literal pattern `pat` match at the head of `s`?  `useB` turns on
the `\b` boundary checks on both sides (all boundary-anchored patterns in
`preprocess_expression` start and end with word characters); `prev` is the
character of the *original* string immediately before `s`, as `re.sub`
computes boundaries on the string being scanned. -/
def matchesHere (useB : Bool) (pat : List Char) (prev : Option Char) (s : List Char) : Bool :=
  pat.isPrefixOf s && (!useB || (bdryL prev && bdryR (s.drop pat.length)))

/-- One `re.sub(pattern, replacement, s)` pass for a literal pattern:
left-to-right scan, non-overlapping matches, continuing after each match.
`fuel` only needs to be `≥ s.length`. -/
def substAux (useB : Bool) (pat rep : List Char) : Nat → Option Char → List Char → List Char
  | 0, _, s => s
  | _ + 1, _, [] => []
  | fuel + 1, prev, c :: rest =>
    if matchesHere useB pat prev (c :: rest) && !pat.isEmpty then
      rep ++ substAux useB pat rep fuel (some (pat.getLastD c)) ((c :: rest).drop pat.length)
    else
      c :: substAux useB pat rep fuel (some c) rest

/-- `re.sub` for a literal pattern (`useB` = both-sides `\b` anchors). -/
def subst (useB : Bool) (pat rep s : List Char) : List Char :=
  substAux useB pat rep s.length none s

/-- Characters matched by the regex class `[\d\.]`. -/
def digitDot (c : Char) : Bool := c.isDigit || c = '.'

/-- The literal part of `re.sub(r'square root of ([\d\.]+)', r'sqrt(\1)', _)`. -/
def sqrtPat : List Char := "square root of ".data

/-- The `square root of ([\d\.]+)` → `sqrt(\1)` pass (no `\b` anchors in the
source).  A match needs the literal followed by at least one `[\d\.]`
character; the capture is the maximal such run. -/
def sqrtSubAux : Nat → List Char → List Char
  | 0, s => s
  | _ + 1, [] => []
  | fuel + 1, c :: rest =>
    let s := c :: rest
    let afterLit := s.drop sqrtPat.length
    if sqrtPat.isPrefixOf s && digitDot (afterLit.headD '\x00') then
      let run := afterLit.takeWhile digitDot
      "sqrt(".data ++ run ++ ')' :: sqrtSubAux fuel (afterLit.drop run.length)
    else
      c :: sqrtSubAux fuel rest

def sqrtSub (s : List Char) : List Char := sqrtSubAux s.length s

/-- The literal part of `re.sub(r'factorial of (\d+)', r'factorial(\1)', _)`. -/
def factPat : List Char := "factorial of ".data

/-- The `factorial of (\d+)` → `factorial(\1)` pass (no `\b` anchors). -/
def factSubAux : Nat → List Char → List Char
  | 0, s => s
  | _ + 1, [] => []
  | fuel + 1, c :: rest =>
    let s := c :: rest
    let afterLit := s.drop factPat.length
    if factPat.isPrefixOf s && (afterLit.headD '\x00').isDigit then
      let run := afterLit.takeWhile Char.isDigit
      "factorial(".data ++ run ++ ')' :: factSubAux fuel (afterLit.drop run.length)
    else
      c :: factSubAux fuel rest

def factSub (s : List Char) : List Char := factSubAux s.length s

/-- `str.split()` with no argument: split on runs of whitespace, dropping
empty pieces.  `cur` accumulates the current word in reverse. -/
def wsWordsAux (cur : List Char) : List Char → List (List Char)
  | [] => if cur.isEmpty then [] else [cur.reverse]
  | c :: rest =>
    if pySpace c then
      if cur.isEmpty then wsWordsAux [] rest else cur.reverse :: wsWordsAux [] rest
    else
      wsWordsAux (c :: cur) rest

def wsWords (s : List Char) : List (List Char) := wsWordsAux [] s

/-- `' '.join(words)`. -/
def joinWords : List (List Char) → List Char
  | [] => []
  | [w] => w
  | w :: rest => w ++ ' ' :: joinWords rest

/-- `preprocess_expression` from `src/calculator.py`, pass for pass, in
source order (lower-casing; the four power phrases longest first, each with
`\b` anchors; `square root of` / `factorial of` without anchors; the identity
rewrites of `pi` and `e`; `divided by` / `multiplied by` without anchors;
`times`, and the filler words `the` / `of`, with anchors; whitespace
collapse). -/
def preprocessList (s : List Char) : List Char :=
  joinWords (wsWords
    (subst true "of".data "".data
    (subst true "the".data "".data
    (subst true "times".data "*".data
    (subst false "multiplied by".data "*".data
    (subst false "divided by".data "/".data
    (subst true "e".data "e".data
    (subst true "pi".data "pi".data
    (factSub
    (sqrtSub
    (subst true "power".data "**".data
    (subst true "power of".data "**".data
    (subst true "to the power".data "**".data
    (subst true "to the power of".data "**".data
    (lowerStr s)))))))))))))))

/-- `preprocess_expression` at the `String` interface (the spec's
`normalize`). -/
def preprocess_expression (s : String) : String := ⟨preprocessList s.data⟩

/-! ## Values and errors of the restricted evaluator -/

/-- Exceptions that `eval` can raise inside `evaluate_expression`, all caught
by its `try/except` and returned as `Error: ...` strings.  `zeroDiv` is the
`ZeroDivisionError` singled out by the first `except` clause. -/
inductive EvalErr
  | zeroDiv
  | nameErr (n : String)
  | syntaxErr
  | typeErr
  | attrErr (n : String)
  | valueErr
  | unmodelled (n : String)
  deriving DecidableEq

/-- Python values flowing through the modelled evaluator.  Floats are exact
rationals; `inexactV` stands for a float the rational model does not track
(never produced on the inputs any theorem evaluates); `typeV` is a host class
object such as the result of `().__class__`; `dictV` is the empty
`__builtins__` dict installed by `eval`'s globals; `globalsV` is the *live
module-globals dict* of `calculator.py`, reachable as `__globals__` of the
module-level lambdas (`sind`, `cosd`, `tand`) — it holds the real
`variables` and `safe_functions` dicts and the module's `__builtins__`, so
every continuation of that chain (subscription, `.update`, `.exit`) acts on
host state outside this pure model; `constV` names the irrational registry
constants (`pi`, `e`, ...). -/
inductive PyVal
  | intV (n : Int)
  | floatV (q : ℚ)
  | boolV (b : Bool)
  | strV (s : String)
  | tupV (vs : List PyVal)
  | typeV (n : String)
  | dictV
  | globalsV
  | funV (n : String)
  | constV (n : String)
  | inexactV

/-! ## Tokenizer for the host expression language fragment -/

inductive Tok
  | intTok (n : Nat)
  | floatTok (q : ℚ)
  | nameTok (s : String)
  | opTok (s : String)
  | lparen
  | rparen
  | comma
  | dotTok
  deriving DecidableEq

/-- First character of a Python identifier. -/
def identStart (c : Char) : Bool := c.isAlpha || c = '_'

/-- Digit-list to numeric value. -/
def natOfDigits (ds : List Char) : Nat :=
  ds.foldl (fun n c => 10 * n + (c.toNat - 48)) 0

/-- Value of a decimal literal `ds . fr` as an exact rational. -/
def decimalVal (ds fr : List Char) : ℚ :=
  (natOfDigits ds : ℚ) + (natOfDigits fr : ℚ) / ((10 : ℚ) ^ fr.length)

/-- Python's hard keywords in their lower-case spellings: a bare occurrence
of any of them in the arithmetic fragment handled here is a `SyntaxError`
in `eval`, even when a same-named entry exists in the evaluation scope.
The model rejects an identifier run that spells a keyword during
tokenization; the host rejects it at parse time, and on every form the
model accepts the observable result through `eval` is the same
`SyntaxError`.  (`True`/`False`/`None` never reach this point because
`preprocess_expression` lower-cases every input first; the soft keywords
`match`/`case`/`type` are ordinary identifiers in an expression.) -/
def pyKeywords : List String :=
  ["and", "as", "assert", "async", "await", "break", "class", "continue",
   "def", "del", "elif", "else", "except", "finally", "for", "from",
   "global", "if", "import", "in", "is", "lambda", "nonlocal", "not",
   "or", "pass", "raise", "return", "try", "while", "with", "yield"]

def isPyKeyword (s : String) : Bool := pyKeywords.contains s

/-- Tokenizer for the arithmetic expression fragment: numbers (integer and
decimal), identifiers, the operators `+ - * / // % ** == =`, parentheses,
commas and attribute dots.  Any other character is treated as a
`SyntaxError`, as is a bare `=` once it reaches the parser.

Model boundary, stated explicitly: the host tokenizer additionally accepts
string literals, brackets/braces (subscription, list/dict displays), colons
(lambdas) and the keyword operators `and`/`or`/`not`; those host-reachable
forms are collapsed to syntax errors here.  No theorem below is made true by
this collapse: the universal theorems are either conditioned on the model
evaluation succeeding (C2, C4), confined to name resolution (`evalE` on
`nameE`, C6), or restricted to identifier-shaped inputs whose host behaviour
the model reproduces exactly (C9); the capabilities reachable through the
richer syntax are the subject of the C1/C3 findings, settled against the
host by hand-trace, with the first link (`__class__`, `__globals__`)
modelled.  `fuel ≥ length` suffices. -/
def tokenizeAux : Nat → List Char → Except EvalErr (List Tok)
  | 0, _ => .error .syntaxErr
  | _ + 1, [] => .ok []
  | fuel + 1, c :: rest =>
    if pySpace c then
      tokenizeAux fuel rest
    else if identStart c then
      let run := c :: rest.takeWhile wordChar
      if isPyKeyword ⟨run⟩ then .error .syntaxErr
      else do
        let ts ← tokenizeAux fuel (rest.dropWhile wordChar)
        return .nameTok ⟨run⟩ :: ts
    else if c.isDigit then
      let ds := c :: rest.takeWhile Char.isDigit
      let rest2 := rest.dropWhile Char.isDigit
      match rest2 with
      | '.' :: r2 =>
        let fr := r2.takeWhile Char.isDigit
        do
          let ts ← tokenizeAux fuel (r2.dropWhile Char.isDigit)
          return .floatTok (decimalVal ds fr) :: ts
      | _ =>
        do
          let ts ← tokenizeAux fuel rest2
          return .intTok (natOfDigits ds) :: ts
    else if c = '(' then do
      let ts ← tokenizeAux fuel rest
      return .lparen :: ts
    else if c = ')' then do
      let ts ← tokenizeAux fuel rest
      return .rparen :: ts
    else if c = ',' then do
      let ts ← tokenizeAux fuel rest
      return .comma :: ts
    else if c = '.' then do
      let ts ← tokenizeAux fuel rest
      return .dotTok :: ts
    else if c = '*' then
      match rest with
      | '*' :: r2 => do
        let ts ← tokenizeAux fuel r2
        return .opTok "**" :: ts
      | _ => do
        let ts ← tokenizeAux fuel rest
        return .opTok "*" :: ts
    else if c = '/' then
      match rest with
      | '/' :: r2 => do
        let ts ← tokenizeAux fuel r2
        return .opTok "//" :: ts
      | _ => do
        let ts ← tokenizeAux fuel rest
        return .opTok "/" :: ts
    else if c = '=' then
      match rest with
      | '=' :: r2 => do
        let ts ← tokenizeAux fuel r2
        return .opTok "==" :: ts
      | _ => do
        let ts ← tokenizeAux fuel rest
        return .opTok "=" :: ts
    else if c = '+' || c = '-' || c = '%' then do
      let ts ← tokenizeAux fuel rest
      return .opTok ⟨[c]⟩ :: ts
    else
      .error .syntaxErr

/-! ## Parser (precedence climbing, mirroring Python's expression grammar
levels reachable here: `==` < `+ -` < `* / // %` < unary `-` < `**`
(right-associative, exponent at unary level) < postfix call/attribute
< atoms). -/

inductive PyExpr
  | intLit (n : Nat)
  | floatLit (q : ℚ)
  | nameE (s : String)
  | attrE (e : PyExpr) (fld : String)
  | callE (f : PyExpr) (args : List PyExpr)
  | binE (op : String) (a b : PyExpr)
  | negE (e : PyExpr)
  | tupE (es : List PyExpr)

/-- Binary operators accepted at each precedence level. -/
def levelOps : Nat → String → Bool
  | 0, o => o == "=="
  | 1, o => o == "+" || o == "-"
  | 2, o => o == "*" || o == "/" || o == "//" || o == "%"
  | _, _ => false

mutual

/-- Parse at precedence level `lvl` (see the grammar summary above). -/
def parseL : Nat → Nat → List Tok → Except EvalErr (PyExpr × List Tok)
  | 0, _, _ => .error .syntaxErr
  | fuel + 1, 0, ts => do
    let (a, ts1) ← parseL fuel 1 ts
    parseStar fuel 0 a ts1
  | fuel + 1, 1, ts => do
    let (a, ts1) ← parseL fuel 2 ts
    parseStar fuel 1 a ts1
  | fuel + 1, 2, ts => do
    let (a, ts1) ← parseL fuel 3 ts
    parseStar fuel 2 a ts1
  | fuel + 1, 3, ts =>
    match ts with
    | .opTok "-" :: r => do
      let (e, r2) ← parseL fuel 3 r
      return (.negE e, r2)
    | _ => parseL fuel 4 ts
  | fuel + 1, 4, ts => do
    let (a, ts1) ← parseL fuel 5 ts
    match ts1 with
    | .opTok "**" :: r => do
      let (b, r2) ← parseL fuel 3 r
      return (.binE "**" a b, r2)
    | _ => return (a, ts1)
  | fuel + 1, _, ts => do
    let (a, ts1) ← parseAtom fuel ts
    parsePostLoop fuel a ts1

/-- Iterate `(op rhs)*` for the left-associative levels. -/
def parseStar : Nat → Nat → PyExpr → List Tok → Except EvalErr (PyExpr × List Tok)
  | 0, _, _, _ => .error .syntaxErr
  | fuel + 1, lvl, acc, ts =>
    match ts with
    | .opTok o :: r =>
      if levelOps lvl o then do
        let (b, r2) ← parseL fuel (lvl + 1) r
        parseStar fuel lvl (.binE o acc b) r2
      else
        .ok (acc, ts)
    | _ => .ok (acc, ts)

/-- Postfix call and attribute chains. -/
def parsePostLoop : Nat → PyExpr → List Tok → Except EvalErr (PyExpr × List Tok)
  | 0, _, _ => .error .syntaxErr
  | fuel + 1, a, ts =>
    match ts with
    | .dotTok :: .nameTok f :: r => parsePostLoop fuel (.attrE a f) r
    | .lparen :: .rparen :: r => parsePostLoop fuel (.callE a []) r
    | .lparen :: r => do
      let (args, r2) ← parseArgs fuel r
      parsePostLoop fuel (.callE a args) r2
    | _ => .ok (a, ts)

/-- Comma-separated argument list up to the closing parenthesis. -/
def parseArgs : Nat → List Tok → Except EvalErr (List PyExpr × List Tok)
  | 0, _ => .error .syntaxErr
  | fuel + 1, ts => do
    let (e, ts1) ← parseL fuel 0 ts
    match ts1 with
    | .comma :: r => do
      let (es, r2) ← parseArgs fuel r
      return (e :: es, r2)
    | .rparen :: r => return ([e], r)
    | _ => .error .syntaxErr

/-- Atoms: literals, names, `()` (empty tuple), parenthesized expressions
and tuple displays. -/
def parseAtom : Nat → List Tok → Except EvalErr (PyExpr × List Tok)
  | 0, _ => .error .syntaxErr
  | fuel + 1, ts =>
    match ts with
    | .intTok n :: r => .ok (.intLit n, r)
    | .floatTok q :: r => .ok (.floatLit q, r)
    | .nameTok s :: r => .ok (.nameE s, r)
    | .lparen :: .rparen :: r => .ok (.tupE [], r)
    | .lparen :: r => do
      let (e, ts1) ← parseL fuel 0 r
      match ts1 with
      | .rparen :: r2 => return (e, r2)
      | .comma :: r2 => do
        let (es, r3) ← parseArgs fuel r2
        return (.tupE (e :: es), r3)
      | _ => .error .syntaxErr
    | _ => .error .syntaxErr

end

/-- Tokenize and parse a whole expression string; trailing tokens are a
`SyntaxError` (as for `eval` on e.g. `x = 2 == 2`). -/
def parseExprStr (s : String) : Except EvalErr PyExpr := do
  let ts ← tokenizeAux (s.length + 1) s.data
  let (e, r) ← parseL (10 * ts.length + 10) 0 ts
  match r with
  | [] => return e
  | _ => .error .syntaxErr

/-! ## The `safe_functions` registry

`safe_functions = {k: v for k, v in math.__dict__.items() if not
k.startswith("__")}` followed by the explicit `update`.  The math-module
names are those of CPython 3.11 (the exact set is host-version dependent;
every property proved below depends only on stable facts: `sqrt` is present,
and no double-underscore name such as `__builtins__` is). The `update` keys
(`abs`, `round`, `pow`, `sqrt`, `factorial`, `sind`, `cosd`, `tand`,
`radians`, `degrees`, `pi`, `e`) are listed once with their updated
values. -/
def safe_functions : List (String × PyVal) :=
  [("acos", .funV "acos"), ("acosh", .funV "acosh"), ("asin", .funV "asin"),
   ("asinh", .funV "asinh"), ("atan", .funV "atan"), ("atan2", .funV "atan2"),
   ("atanh", .funV "atanh"), ("cbrt", .funV "cbrt"), ("ceil", .funV "ceil"),
   ("comb", .funV "comb"), ("copysign", .funV "copysign"), ("cos", .funV "cos"),
   ("cosh", .funV "cosh"), ("degrees", .funV "degrees"), ("dist", .funV "dist"),
   ("e", .constV "e"), ("erf", .funV "erf"), ("erfc", .funV "erfc"),
   ("exp", .funV "exp"), ("exp2", .funV "exp2"), ("expm1", .funV "expm1"),
   ("fabs", .funV "fabs"), ("factorial", .funV "factorial"),
   ("floor", .funV "floor"), ("fmod", .funV "fmod"), ("frexp", .funV "frexp"),
   ("fsum", .funV "fsum"), ("gamma", .funV "gamma"), ("gcd", .funV "gcd"),
   ("hypot", .funV "hypot"), ("inf", .constV "inf"), ("isclose", .funV "isclose"),
   ("isfinite", .funV "isfinite"), ("isinf", .funV "isinf"),
   ("isnan", .funV "isnan"), ("isqrt", .funV "isqrt"), ("lcm", .funV "lcm"),
   ("ldexp", .funV "ldexp"), ("lgamma", .funV "lgamma"), ("log", .funV "log"),
   ("log10", .funV "log10"), ("log1p", .funV "log1p"), ("log2", .funV "log2"),
   ("modf", .funV "modf"), ("nan", .constV "nan"),
   ("nextafter", .funV "nextafter"), ("perm", .funV "perm"),
   ("pi", .constV "pi"), ("pow", .funV "pow"), ("prod", .funV "prod"),
   ("radians", .funV "radians"), ("remainder", .funV "remainder"),
   ("sin", .funV "sin"), ("sinh", .funV "sinh"), ("sqrt", .funV "sqrt"),
   ("tan", .funV "tan"), ("tanh", .funV "tanh"), ("tau", .constV "tau"),
   ("trunc", .funV "trunc"), ("ulp", .funV "ulp"),
   ("abs", .funV "abs"), ("round", .funV "round"),
   ("sind", .funV "sind"), ("cosd", .funV "cosd"), ("tand", .funV "tand")]

/-- Runtime name resolution inside `eval(val, {"__builtins__": {}},
{**safe_functions, **variables})`: locals first (the merged dict, in which
`variables` entries override same-named `safe_functions` entries), then the
globals dict, whose only key is `__builtins__` (bound to the empty dict);
any other name is a `NameError`.  One name never reaches this runtime path:
`__debug__` is folded to `True` by the compiler (see `evalE`). -/
def lookupScope (vars : List (String × PyVal)) (n : String) : Option PyVal :=
  match List.lookup n vars with
  | some v => some v
  | none =>
    match List.lookup n safe_functions with
    | some v => some v
    | none => if n = "__builtins__" then some .dictV else none

/-! ## The interpreter -/

/-- Numeric view: Python `bool` is an `int` subclass. -/
def asInt : PyVal → Option Int
  | .intV n => some n
  | .boolV b => some (if b then 1 else 0)
  | _ => none

/-- Numeric view as a rational (ints, bools and modelled floats). -/
def asQ : PyVal → Option ℚ
  | .intV n => some n
  | .boolV b => some (if b then 1 else 0)
  | .floatV q => some q
  | _ => none

/-- Binary operator semantics on the numeric fragment (plus tuple and string
concatenation for `+`).  Division, floor division and modulus by zero raise
`ZeroDivisionError`; `/` is Python 3 true division (always a float); `//` and
`%` use floor semantics; `**` on two ints with non-negative exponent is
integral.  Model boundary: floats are idealised as exact unbounded
rationals, so IEEE rounding and `OverflowError` (e.g. the host's
`10.0 ** 1000`) are absent; every float a theorem below computes is exactly
representable and no theorem's truth rests on the absent overflow.
Unexercised host corners (float-exponent powers, non-numeric equality) fall
to `inexactV` / `typeErr` and are never evaluated by any theorem below. -/
def evalBin (op : String) (a b : PyVal) : Except EvalErr PyVal :=
  if op = "+" then
    match asInt a, asInt b with
    | some x, some y => .ok (.intV (x + y))
    | _, _ =>
      match asQ a, asQ b with
      | some x, some y => .ok (.floatV (x + y))
      | _, _ =>
        match a, b with
        | .tupV xs, .tupV ys => .ok (.tupV (xs ++ ys))
        | .strV x, .strV y => .ok (.strV (x ++ y))
        | _, _ => .error .typeErr
  else if op = "-" then
    match asInt a, asInt b with
    | some x, some y => .ok (.intV (x - y))
    | _, _ =>
      match asQ a, asQ b with
      | some x, some y => .ok (.floatV (x - y))
      | _, _ => .error .typeErr
  else if op = "*" then
    match asInt a, asInt b with
    | some x, some y => .ok (.intV (x * y))
    | _, _ =>
      match asQ a, asQ b with
      | some x, some y => .ok (.floatV (x * y))
      | _, _ => .error .typeErr
  else if op = "/" then
    match asQ a, asQ b with
    | some x, some y => if y = 0 then .error .zeroDiv else .ok (.floatV (x / y))
    | _, _ => .error .typeErr
  else if op = "//" then
    match asInt a, asInt b with
    | some x, some y => if y = 0 then .error .zeroDiv else .ok (.intV (Int.fdiv x y))
    | _, _ =>
      match asQ a, asQ b with
      | some x, some y =>
        if y = 0 then .error .zeroDiv else .ok (.floatV (Rat.floor (x / y)))
      | _, _ => .error .typeErr
  else if op = "%" then
    match asInt a, asInt b with
    | some x, some y => if y = 0 then .error .zeroDiv else .ok (.intV (Int.fmod x y))
    | _, _ =>
      match asQ a, asQ b with
      | some x, some y =>
        if y = 0 then .error .zeroDiv
        else .ok (.floatV (x - y * (Rat.floor (x / y) : ℚ)))
      | _, _ => .error .typeErr
  else if op = "**" then
    match asInt a, asInt b with
    | some x, some y =>
      if 0 ≤ y then .ok (.intV (x ^ y.toNat))
      else if x = 0 then .error .zeroDiv
      else .ok (.floatV ((x : ℚ) ^ y))
    | _, _ =>
      match asQ a, asInt b with
      | some x, some y =>
        if x = 0 ∧ y < 0 then .error .zeroDiv else .ok (.floatV (x ^ y))
      | _, _ =>
        match asQ a, asQ b with
        | some _, some _ => .ok .inexactV
        | _, _ => .error .typeErr
  else if op = "==" then
    match asQ a, asQ b with
    | some x, some y => .ok (.boolV (x == y))
    | _, _ =>
      match a, b with
      | .strV x, .strV y => .ok (.boolV (x == y))
      | _, _ => .ok (.boolV false)
  else
    .error .typeErr

/-- Unary minus. -/
def evalNeg (a : PyVal) : Except EvalErr PyVal :=
  match asInt a with
  | some x => .ok (.intV (-x))
  | none =>
    match asQ a with
    | some x => .ok (.floatV (-x))
    | none => .error .typeErr

/-- The modelled fragment of the object protocol.  Every Python object
exposes `__class__`, and the module-level lambdas of the registry (`sind`,
`cosd`, `tand`) expose `__globals__` — the live module dict, through which
the host reaches the real `variables` table and the builtins (the
mutation-on-failure and `SystemExit` escapes recorded with C3); built-in
functions such as `math.sqrt` have no `__globals__` and raise
`AttributeError`, as does every attribute outside this fragment.  The
continuations of the `__globals__`/`__class__` chains (`__bases__`,
`__subclasses__`, subscription into the live dict, bound-method calls that
mutate it, `exit`) act on host state a pure model cannot carry; they are
settled against the host by hand-trace in the C1 and C3 findings. -/
def pyTypeName : PyVal → String
  | .intV _ => "int"
  | .floatV _ => "float"
  | .boolV _ => "bool"
  | .strV _ => "str"
  | .tupV _ => "tuple"
  | .typeV _ => "type"
  | .dictV => "dict"
  | .globalsV => "dict"
  | .funV _ => "builtin_function_or_method"
  | .constV _ => "float"
  | .inexactV => "float"

def getAttr (v : PyVal) (fld : String) : Except EvalErr PyVal :=
  if fld = "__class__" then .ok (.typeV (pyTypeName v))
  else if fld = "__globals__" then
    match v with
    | .funV n =>
      if n = "sind" || n = "cosd" || n = "tand" then .ok .globalsV
      else .error (.attrErr fld)
    | _ => .error (.attrErr fld)
  else .error (.attrErr fld)

/-- The square root of a perfect square, by structural search. -/
def exactRoot (n : Nat) : Option Nat :=
  (List.range (n + 1)).find? (fun k => k * k == n)

/-- Application of registry functions.  `sqrt` is exact on perfect squares
(the only use any theorem makes); `factorial` and `abs` are exact; every
other registry function is numeric-only in the host and its value is not
needed, so it maps to the `unmodelled` error, which like every other
exception is caught by `evaluate_expression`. -/
def applyFn (f : String) (args : List PyVal) : Except EvalErr PyVal :=
  match f, args with
  | "sqrt", [.intV n] =>
    if n < 0 then .error .valueErr
    else
      match exactRoot n.toNat with
      | some k => .ok (.floatV k)
      | none => .ok .inexactV
  | "factorial", [.intV n] =>
    if n < 0 then .error .valueErr else .ok (.intV (Nat.factorial n.toNat))
  | "abs", [.intV n] => .ok (.intV (Int.natAbs n))
  | "abs", [.floatV q] => .ok (.floatV |q|)
  | f, _ => .error (.unmodelled f)

mutual

/-- Expression interpreter.  Operands evaluate left to right; the callee
before the arguments; any failure propagates as an exception value.
CPython folds the bare name `__debug__` to the constant `True` at compile
time — it never performs a runtime lookup for it, ignoring even a same-named
variable; since every `eval` here compiles and immediately evaluates once,
the fold is modelled at name-resolution time.  `fuel ≥` the expression
height suffices. -/
def evalE : Nat → List (String × PyVal) → PyExpr → Except EvalErr PyVal
  | 0, _, _ => .error (.unmodelled "fuel")
  | fuel + 1, env, e =>
    match e with
    | .intLit n => .ok (.intV n)
    | .floatLit q => .ok (.floatV q)
    | .nameE s =>
      if s = "__debug__" then .ok (.boolV true)
      else
        match lookupScope env s with
        | some v => .ok v
        | none => .error (.nameErr s)
    | .attrE a fld => do
      let v ← evalE fuel env a
      getAttr v fld
    | .callE f as => do
      let vf ← evalE fuel env f
      let vs ← evalArgs fuel env as
      match vf with
      | .funV n => applyFn n vs
      | _ => .error .typeErr
    | .binE op a b => do
      let va ← evalE fuel env a
      let vb ← evalE fuel env b
      evalBin op va vb
    | .negE a => do
      let va ← evalE fuel env a
      evalNeg va
    | .tupE es => do
      let vs ← evalArgs fuel env es
      return .tupV vs

def evalArgs : Nat → List (String × PyVal) → List PyExpr → Except EvalErr (List PyVal)
  | 0, _, _ => .error (.unmodelled "fuel")
  | _ + 1, _, [] => .ok []
  | fuel + 1, env, e :: es => do
    let v ← evalE fuel env e
    let vs ← evalArgs fuel env es
    return v :: vs

end

/-- `eval(s, {"__builtins__": {}}, {**safe_functions, **variables})`:
parse then interpret. -/
def evalStr (s : String) (vars : List (String × PyVal)) : Except EvalErr PyVal := do
  let e ← parseExprStr s
  evalE (s.length + 10) vars e

/-! ## `evaluate_expression` -/

/-- `"=" in expr`. -/
def hasEqChar (s : List Char) : Bool := s.contains '='

/-- Does `s` begin with `==`? -/
def startsDoubleEq (s : List Char) : Bool :=
  match s with
  | c1 :: c2 :: _ => c1 == '=' && c2 == '='
  | _ => false

/-- `"==" in expr`. -/
def hasDoubleEq : List Char → Bool
  | [] => false
  | c :: rest => startsDoubleEq (c :: rest) || hasDoubleEq rest

/-- `expr.split("=", 1)` when `"=" in expr`: the parts before and after the
first `=`.  (When there is no `=`, returns `(s, [])`; `evaluate_expression`
only calls it under the detection guard.) -/
def splitEqAux : List Char → List Char × List Char
  | [] => ([], [])
  | c :: rest =>
    if c = '=' then ([], rest)
    else
      let p := splitEqAux rest
      (c :: p.1, p.2)

/-- `str.strip()`. -/
def stripList (s : List Char) : List Char :=
  ((s.dropWhile pySpace).reverse.dropWhile pySpace).reverse

/-- `variables[var] = result` on the modelled dict (overwrite in place or
append). -/
def insertVar (k : String) (v : PyVal) : List (String × PyVal) → List (String × PyVal)
  | [] => [(k, v)]
  | (k2, v2) :: rest =>
    if k2 = k then (k, v) :: rest else (k2, v2) :: insertVar k v rest

/-- The tagged outcome of `evaluate_expression`: a raw value, the assignment
acknowledgment string `f"{var} = {result}"` (carried as its parts), or a
classified `Error: ...` string. -/
inductive PyResult
  | val (v : PyVal)
  | ack (name : String) (v : PyVal)
  | err (e : EvalErr)

/-- The assignment branch of `evaluate_expression`: split the preprocessed
string on the first `=`, strip both sides, evaluate the right-hand side in
the merged scope, and on success bind the stripped left-hand side (the code
performs no identifier-syntax validation of it) and acknowledge; on failure
return the error and leave the table untouched. -/
def evalAssign (expr : List Char) (vars : List (String × PyVal)) :
    PyResult × List (String × PyVal) :=
  match evalStr ⟨stripList (splitEqAux expr).2⟩ vars with
  | .ok r =>
    (.ack ⟨stripList (splitEqAux expr).1⟩ r,
     insertVar ⟨stripList (splitEqAux expr).1⟩ r vars)
  | .error e => (.err e, vars)

/-- The plain-expression branch of `evaluate_expression`: evaluate the whole
preprocessed string; errors are classified, the table is never touched. -/
def evalPlain (expr : List Char) (vars : List (String × PyVal)) :
    PyResult × List (String × PyVal) :=
  match evalStr ⟨expr⟩ vars with
  | .ok r => (.val r, vars)
  | .error e => (.err e, vars)

/-- `evaluate_expression` from `src/calculator.py`, with the module-level
`variables` dict passed and returned explicitly.  Preprocess; if the result
contains `=` but not `==` (`"=" in expr and "==" not in expr`), take the
assignment branch, otherwise the plain branch.  Every exception is caught
and returned as an error value, so the function is total and failure leaves
the table untouched. -/
def evaluate_expression (s : String) (vars : List (String × PyVal)) :
    PyResult × List (String × PyVal) :=
  if hasEqChar (preprocessList s.data) && !hasDoubleEq (preprocessList s.data) then
    evalAssign (preprocessList s.data) vars
  else
    evalPlain (preprocessList s.data) vars

/-! ## The fixed-operator CLI variant (`src/main.py`) -/

/-- The strings `int()` accepts as digit runs: non-empty, decimal digits
only (ASCII fragment; `int('²')` raises `ValueError` although
`'²'.isdigit()` holds — the mismatch behind the C10 finding). -/
def isDecDigitStr (l : List Char) : Bool := !l.isEmpty && l.all Char.isDigit

/-- The outcomes `calculate` can return: a number, the `(quotient,
remainder)` tuple of `~`, or one of its two error strings. -/
inductive CalcResult
  | intR (n : Int)
  | floatR (q : ℚ)
  | pairR (q r : Int)
  | divZeroMsg
  | unsupportedMsg
  deriving DecidableEq

/-- `int(s)` for the string shapes reachable here: optional surrounding
whitespace, an optional sign, then *decimal* digits; anything else —
including digit-property characters such as `'²'` that pass `isdigit` —
raises `ValueError`. -/
def pyIntParse (s : String) : Option Int :=
  match stripList s.data with
  | [] => none
  | c :: ds =>
    if c = '-' then
      (if isDecDigitStr ds then some (-(natOfDigits ds : Int)) else none)
    else if c = '+' then
      (if isDecDigitStr ds then some (natOfDigits ds : Int) else none)
    else if isDecDigitStr (c :: ds) then some (natOfDigits (c :: ds) : Int)
    else none

/-- `calculate` from `src/main.py`.  `int()` conversion happens first and an
invalid literal raises (modelled as `Except.error`); `/` is true division,
`~` returns floor-division quotient and remainder, both guarded against a
zero divisor; any other operator falls to the unsupported-operator
message. -/
def calculate (num1 : String) (oper : Char) (num2 : String) :
    Except String CalcResult :=
  match pyIntParse num1, pyIntParse num2 with
  | some a, some b =>
    .ok (if oper = '+' then .intR (a + b)
      else if oper = '-' then .intR (a - b)
      else if oper = '*' then .intR (a * b)
      else if oper = '/' then
        (if b = 0 then .divZeroMsg else .floatR ((a : ℚ) / (b : ℚ)))
      else if oper = '~' then
        (if b = 0 then .divZeroMsg else .pairR (Int.fdiv a b) (Int.fmod a b))
      else .unsupportedMsg)
  | _, _ => .error "ValueError: invalid literal for int"

/-! ## Spec-side definitions

The following definitions formalize the *spec's wording* (not the code) and
exist only to be compared with the behaviour of the code-derived definitions
above. -/

/-- Identifier syntax as the spec states it: a letter or underscore start,
alphanumerics or underscore continue (non-empty). -/
def specIdent (s : String) : Bool :=
  match s.data with
  | [] => false
  | c :: rest => identStart c && rest.all wordChar

/-- The spec's assignment-detection wording: the string contains a `=`
character that is not part of an `==` comparison token (no adjacent `=` on
either side). -/
def claimTopLevelEqAux (prev : Option Char) : List Char → Bool
  | [] => false
  | c :: rest =>
    (c == '=' && !(prev == some '=') && !(rest.head? == some '=')) ||
      claimTopLevelEqAux (some c) rest

def claimTopLevelEq (s : List Char) : Bool := claimTopLevelEqAux none s

/-! ## Auxiliary definitions for the theorems -/

/-- Does the result classify a failure? -/
def isErrResult : PyResult → Bool
  | .err _ => true
  | _ => false

/-- Does a string contain an uppercase letter? -/
def hasUpperChar (s : String) : Bool := s.data.any Char.isUpper

/-- `str.lower()` at the `String` interface. -/
def lowerPy (s : String) : String := ⟨lowerStr s.data⟩

/-- The last character of `pre`, or `prev` when `pre` is empty: the character
that immediately precedes a match whose scan started with previous character
`prev`. -/
def lastOr (prev : Option Char) : List Char → Option Char
  | [] => prev
  | c :: rest => lastOr (some c) rest

/-- An occurrence of the literal pattern `pat` somewhere in `s`. -/
def PlainOcc (pat s : List Char) : Prop :=
  ∃ pre post, s = pre ++ pat ++ post

/-- An occurrence of `pat` in `s` that satisfies both `\b` boundary checks,
for a scan whose character preceding `s` is `prev`. -/
def BOcc (pat : List Char) (prev : Option Char) (s : List Char) : Prop :=
  ∃ pre post, s = pre ++ pat ++ post ∧
    bdryL (lastOr prev pre) = true ∧ bdryR post = true

/-! ## Helper lemmas -/

lemma evaluate_expression_of_detect_true (s : String) (vars : List (String × PyVal))
    (htrue : (hasEqChar (preprocessList s.data) && !hasDoubleEq (preprocessList s.data)) = true) :
    evaluate_expression s vars = evalAssign (preprocessList s.data) vars := by
  unfold evaluate_expression
  split
  case isTrue => rfl
  case isFalse h => exact absurd htrue h

lemma evaluate_expression_of_detect_false (s : String) (vars : List (String × PyVal))
    (hfalse : (hasEqChar (preprocessList s.data) && !hasDoubleEq (preprocessList s.data)) = false) :
    evaluate_expression s vars = evalPlain (preprocessList s.data) vars := by
  unfold evaluate_expression
  split
  case isTrue h => rw [h] at hfalse; cases hfalse
  case isFalse => rfl

lemma splitEqAux_first {pre : List Char} (hpre : '=' ∉ pre) (post : List Char) :
    splitEqAux (pre ++ '=' :: post) = (pre, post) := by
  induction pre with
  | nil => simp [splitEqAux]
  | cons c rest ih =>
    have hc : c ≠ '=' := fun h => hpre (by simp [h])
    have hrest : '=' ∉ rest := fun h => hpre (by simp [h])
    simp [splitEqAux, hc, ih hrest]

lemma hasEqChar_of_mem {l : List Char} (h : '=' ∈ l) : hasEqChar l = true := by
  simp [hasEqChar, List.contains, List.elem_iff, h]

/-!  Lemma kit for the lower-casing claim: character classes under
`str.lower()`, identity of each rewrite pass on identifier-shaped strings,
and the tokenizer/parser behaviour on bare identifiers. -/

lemma wordChar_not_space {c : Char} (h : wordChar c = true) : pySpace c = false := by
  cases hs : pySpace c
  · rfl
  · exfalso
    simp only [pySpace, Bool.or_eq_true, decide_eq_true_eq] at hs
    rcases hs with ((((rfl | rfl) | rfl) | rfl) | rfl) | rfl <;> exact absurd h (by decide)

lemma wordChar_ne_eq {c : Char} (h : wordChar c = true) : c ≠ '=' := by
  rintro rfl
  exact absurd h (by decide)

lemma identStart_wordChar {c : Char} (h : identStart c = true) : wordChar c = true := by
  simp only [identStart, Bool.or_eq_true, decide_eq_true_eq] at h
  rcases h with h | rfl
  · simp [wordChar, h]
  · decide

lemma char_toLower_eq_self {c : Char} (h : ¬(65 ≤ c.toNat ∧ c.toNat ≤ 90)) :
    c.toLower = c := by
  unfold Char.toLower
  rw [if_neg h]

lemma toLower_upper_props {c : Char} (h : 65 ≤ c.toNat ∧ c.toNat ≤ 90) :
    wordChar c.toLower = true ∧ identStart c.toLower = true ∧
    c.toLower.toLower = c.toLower := by
  have hc : c = Char.ofNat c.toNat := (Char.ofNat_toNat c).symm
  have hd : c.toNat = 65 ∨ c.toNat = 66 ∨ c.toNat = 67 ∨ c.toNat = 68 ∨
      c.toNat = 69 ∨ c.toNat = 70 ∨ c.toNat = 71 ∨ c.toNat = 72 ∨
      c.toNat = 73 ∨ c.toNat = 74 ∨ c.toNat = 75 ∨ c.toNat = 76 ∨
      c.toNat = 77 ∨ c.toNat = 78 ∨ c.toNat = 79 ∨ c.toNat = 80 ∨
      c.toNat = 81 ∨ c.toNat = 82 ∨ c.toNat = 83 ∨ c.toNat = 84 ∨
      c.toNat = 85 ∨ c.toNat = 86 ∨ c.toNat = 87 ∨ c.toNat = 88 ∨
      c.toNat = 89 ∨ c.toNat = 90 := by omega
  rcases hd with h1|h1|h1|h1|h1|h1|h1|h1|h1|h1|h1|h1|h1|h1|h1|h1|h1|h1|h1|h1|h1|h1|h1|h1|h1|h1 <;>
    rw [hc, h1] <;> decide

lemma wordChar_toLower {c : Char} (h : wordChar c = true) : wordChar c.toLower = true := by
  by_cases hu : 65 ≤ c.toNat ∧ c.toNat ≤ 90
  · exact (toLower_upper_props hu).1
  · rw [char_toLower_eq_self hu]; exact h

lemma identStart_toLower {c : Char} (h : identStart c = true) :
    identStart c.toLower = true := by
  by_cases hu : 65 ≤ c.toNat ∧ c.toNat ≤ 90
  · exact (toLower_upper_props hu).2.1
  · rw [char_toLower_eq_self hu]; exact h

lemma toLower_idem (c : Char) : c.toLower.toLower = c.toLower := by
  by_cases hu : 65 ≤ c.toNat ∧ c.toNat ≤ 90
  · exact (toLower_upper_props hu).2.2
  · rw [char_toLower_eq_self hu, char_toLower_eq_self hu]

lemma substAux_id_b (pat rep : List Char) :
    ∀ (fuel : Nat) (prev : Option Char) (s : List Char), s.length ≤ fuel →
      ¬ BOcc pat prev s →
      substAux true pat rep fuel prev s = s := by
  intro fuel
  induction fuel with
  | zero => intro prev s hs hno; rfl
  | succ fuel ih =>
    intro prev s hs hno
    cases s with
    | nil => rfl
    | cons c rest =>
      have hm : matchesHere true pat prev (c :: rest) = false := by
        cases hmm : matchesHere true pat prev (c :: rest)
        · rfl
        · exfalso
          apply hno
          simp only [matchesHere, Bool.not_true, Bool.false_or, Bool.and_eq_true] at hmm
          obtain ⟨hpre, hbL, hbR⟩ := hmm
          obtain ⟨t, ht⟩ := List.isPrefixOf_iff_prefix.mp hpre
          refine ⟨[], t, by simp [← ht], ?_, ?_⟩
          · simpa [lastOr] using hbL
          · rw [← ht, List.drop_left] at hbR
            exact hbR
      simp only [substAux, hm, Bool.false_and, Bool.false_eq_true, if_false]
      congr 1
      apply ih (some c) rest (by simpa using Nat.le_of_succ_le_succ hs)
      rintro ⟨pre2, post2, hdec, hl, hr⟩
      exact hno ⟨c :: pre2, post2, by simp [hdec], by simpa [lastOr] using hl, hr⟩

lemma substAux_id_plain (pat rep : List Char) :
    ∀ (fuel : Nat) (prev : Option Char) (s : List Char), s.length ≤ fuel →
      ¬ PlainOcc pat s →
      substAux false pat rep fuel prev s = s := by
  intro fuel
  induction fuel with
  | zero => intro prev s hs hno; rfl
  | succ fuel ih =>
    intro prev s hs hno
    cases s with
    | nil => rfl
    | cons c rest =>
      have hm : matchesHere false pat prev (c :: rest) = false := by
        cases hmm : matchesHere false pat prev (c :: rest)
        · rfl
        · exfalso
          apply hno
          simp only [matchesHere, Bool.not_false, Bool.true_or, Bool.and_true] at hmm
          obtain ⟨t, ht⟩ := List.isPrefixOf_iff_prefix.mp hmm
          exact ⟨[], t, by simp [← ht]⟩
      simp only [substAux, hm, Bool.false_and, Bool.false_eq_true, if_false]
      congr 1
      apply ih (some c) rest (by simpa using Nat.le_of_succ_le_succ hs)
      rintro ⟨pre2, post2, hdec⟩
      exact hno ⟨c :: pre2, post2, by simp [hdec]⟩

lemma subst_id_b {pat : List Char} (rep : List Char) {s : List Char}
    (hno : ¬ BOcc pat none s) : subst true pat rep s = s :=
  substAux_id_b pat rep s.length none s le_rfl hno

lemma subst_id_plain {pat : List Char} (rep : List Char) {s : List Char}
    (hno : ¬ PlainOcc pat s) : subst false pat rep s = s :=
  substAux_id_plain pat rep s.length none s le_rfl hno

lemma substAux_self (pat : List Char) :
    ∀ (fuel : Nat) (prev : Option Char) (s : List Char), s.length ≤ fuel →
      substAux true pat pat fuel prev s = s := by
  intro fuel
  induction fuel with
  | zero => intro prev s hs; rfl
  | succ fuel ih =>
    intro prev s hs
    cases s with
    | nil => rfl
    | cons c rest =>
      by_cases hm : (matchesHere true pat prev (c :: rest) && !pat.isEmpty) = true
      · have hparts := (Bool.and_eq_true _ _).mp hm
        have hpre : pat.isPrefixOf (c :: rest) = true := by
          have := hparts.1
          simp only [matchesHere, Bool.and_eq_true] at this
          exact this.1
        have hne : pat ≠ [] := by
          have := hparts.2
          simpa [List.isEmpty_iff] using this
        obtain ⟨t, ht⟩ := List.isPrefixOf_iff_prefix.mp hpre
        have hdrop : (c :: rest).drop pat.length = t := by
          rw [← ht, List.drop_left]
        have hlen : pat.length + t.length = rest.length + 1 := by
          have := congrArg List.length ht
          simpa [List.length_append] using this
        have hpatpos : 1 ≤ pat.length := by
          cases hp : pat with
          | nil => exact absurd hp hne
          | cons a b => simp
        have hcl : (c :: rest).length = rest.length + 1 := by simp
        rw [hcl] at hs
        simp only [substAux, hm, if_true]
        rw [hdrop, ih _ t (by omega)]
        exact ht
      · rw [substAux, if_neg hm]
        congr 1
        apply ih (some c) rest
        simpa using Nat.le_of_succ_le_succ hs

lemma subst_self (pat : List Char) (s : List Char) : subst true pat pat s = s :=
  substAux_self pat s.length none s le_rfl

lemma sqrtSubAux_id :
    ∀ (fuel : Nat) (s : List Char), s.length ≤ fuel → ¬ PlainOcc sqrtPat s →
      sqrtSubAux fuel s = s := by
  intro fuel
  induction fuel with
  | zero => intro s hs hno; rfl
  | succ fuel ih =>
    intro s hs hno
    cases s with
    | nil => rfl
    | cons c rest =>
      have hpre : sqrtPat.isPrefixOf (c :: rest) = false := by
        cases hp : sqrtPat.isPrefixOf (c :: rest)
        · rfl
        · exfalso
          obtain ⟨t, ht⟩ := List.isPrefixOf_iff_prefix.mp hp
          exact hno ⟨[], t, by simp [← ht]⟩
      rw [sqrtSubAux, hpre]
      simp only [Bool.false_and, Bool.false_eq_true, if_false]
      congr 1
      apply ih rest (by simpa using Nat.le_of_succ_le_succ hs)
      rintro ⟨pre2, post2, hdec⟩
      exact hno ⟨c :: pre2, post2, by simp [hdec]⟩

lemma sqrtSub_id {s : List Char} (hno : ¬ PlainOcc sqrtPat s) : sqrtSub s = s :=
  sqrtSubAux_id s.length s le_rfl hno

lemma factSubAux_id :
    ∀ (fuel : Nat) (s : List Char), s.length ≤ fuel → ¬ PlainOcc factPat s →
      factSubAux fuel s = s := by
  intro fuel
  induction fuel with
  | zero => intro s hs hno; rfl
  | succ fuel ih =>
    intro s hs hno
    cases s with
    | nil => rfl
    | cons c rest =>
      have hpre : factPat.isPrefixOf (c :: rest) = false := by
        cases hp : factPat.isPrefixOf (c :: rest)
        · rfl
        · exfalso
          obtain ⟨t, ht⟩ := List.isPrefixOf_iff_prefix.mp hp
          exact hno ⟨[], t, by simp [← ht]⟩
      rw [factSubAux, hpre]
      simp only [Bool.false_and, Bool.false_eq_true, if_false]
      congr 1
      apply ih rest (by simpa using Nat.le_of_succ_le_succ hs)
      rintro ⟨pre2, post2, hdec⟩
      exact hno ⟨c :: pre2, post2, by simp [hdec]⟩

lemma factSub_id {s : List Char} (hno : ¬ PlainOcc factPat s) : factSub s = s :=
  factSubAux_id s.length s le_rfl hno

lemma occ_get {pre pat post s : List Char} (h : s = pre ++ pat ++ post) {j : Nat} {c : Char}
    (hj : pat.get? j = some c) : s.get? (pre.length + j) = some c := by
  subst h
  have hjlen : j < pat.length := by
    by_contra hge
    rw [List.get?_eq_none.mpr (by omega)] at hj
    cases hj
  rw [List.append_assoc, List.get?_append_right (Nat.le_add_right _ _),
    Nat.add_sub_cancel_left, List.get?_append hjlen]
  exact hj

lemma wsfx_get_at (w : List Char) :
    (w ++ [' ', '=', ' ', '5']).get? w.length = some ' ' ∧
    (w ++ [' ', '=', ' ', '5']).get? (w.length + 1) = some '=' ∧
    (w ++ [' ', '=', ' ', '5']).get? (w.length + 2) = some ' ' ∧
    (w ++ [' ', '=', ' ', '5']).get? (w.length + 3) = some '5' := by
  refine ⟨?_, ?_, ?_, ?_⟩ <;>
    rw [List.get?_append_right (by omega)] <;>
    simp

lemma wsfx_get_space {w : List Char} (hw : ∀ c ∈ w, wordChar c = true) {k : Nat}
    (h : (w ++ [' ', '=', ' ', '5']).get? k = some ' ') :
    k = w.length ∨ k = w.length + 2 := by
  by_cases hk : k < w.length
  · rw [List.get?_append hk] at h
    have hmem := List.get?_mem h
    have := hw _ hmem
    exact absurd this (by decide)
  · push_neg at hk
    rw [List.get?_append_right hk] at h
    have hdlt : k - w.length < 4 := by
      by_contra hge
      rw [List.get?_eq_none.mpr (by simp; omega)] at h
      cases h
    have hcases : k - w.length = 0 ∨ k - w.length = 1 ∨ k - w.length = 2 ∨
        k - w.length = 3 := by omega
    rcases hcases with hc | hc | hc | hc <;> rw [hc] at h
    · left; omega
    · exact absurd h (by decide)
    · right; omega
    · exact absurd h (by decide)

lemma no_occ_space_pat {pat w : List Char} (hw : ∀ c ∈ w, wordChar c = true)
    {j : Nat} {c1 : Char} (hsp : pat.get? j = some ' ') (hnx : pat.get? (j + 1) = some c1)
    (hc1w : wordChar c1 = true) (hc15 : c1 ≠ '5') :
    ¬ PlainOcc pat (w ++ [' ', '=', ' ', '5']) := by
  rintro ⟨pre, post, hdec⟩
  have h1 := occ_get hdec hsp
  have h2 := occ_get hdec hnx
  rcases wsfx_get_space hw h1 with he | he
  · rw [show pre.length + (j + 1) = w.length + 1 by omega] at h2
    rw [(wsfx_get_at w).2.1] at h2
    injection h2 with h2e
    rw [← h2e] at hc1w
    exact absurd hc1w (by decide)
  · rw [show pre.length + (j + 1) = w.length + 3 by omega] at h2
    rw [(wsfx_get_at w).2.2.2] at h2
    injection h2 with h2e
    exact hc15 h2e.symm

lemma lastOr_cons (prev : Option Char) (c : Char) (l : List Char) :
    lastOr prev (c :: l) = lastOr (some c) l := rfl

lemma lastOr_get {pre : List Char} (hne : pre ≠ []) (prev : Option Char) :
    ∃ c, lastOr prev pre = some c ∧ pre.get? (pre.length - 1) = some c := by
  induction pre generalizing prev with
  | nil => exact absurd rfl hne
  | cons x rest ih =>
    by_cases hr : rest = []
    · subst hr
      exact ⟨x, rfl, rfl⟩
    · obtain ⟨c, hc1, hc2⟩ := ih hr (some x)
      refine ⟨c, hc1, ?_⟩
      obtain ⟨m, hm⟩ : ∃ m, rest.length = m + 1 := by
        cases rest with
        | nil => exact absurd rfl hr
        | cons a t => exact ⟨t.length, rfl⟩
      have hl2 : (x :: rest).length - 1 = m + 1 := by simp [hm]
      rw [hl2, List.get?_cons_succ, show m = rest.length - 1 by omega]
      exact hc2

lemma pat_get_exists {pat : List Char} {j : Nat} (hj : j < pat.length) :
    ∃ c, pat.get? j = some c := by
  cases hg : pat.get? j with
  | none => rw [List.get?_eq_none] at hg; omega
  | some c => exact ⟨c, rfl⟩

lemma no_boc_word_pat {pat w : List Char} (hw : ∀ c ∈ w, wordChar c = true)
    (hpw : ∀ c ∈ pat, wordChar c = true) (hlen : 2 ≤ pat.length) (hne : pat ≠ w) :
    ¬ BOcc pat none (w ++ [' ', '=', ' ', '5']) := by
  rintro ⟨pre, post, hdec, hbl, hbr⟩
  have hlens : pre.length + pat.length + post.length = w.length + 4 := by
    have := congrArg List.length hdec
    simp [List.length_append] at this
    omega
  have hA : pre.length + pat.length ≤ w.length := by
    by_contra hgt
    push_neg at hgt
    by_cases hi : pre.length ≤ w.length
    · obtain ⟨c, hc⟩ := pat_get_exists (show w.length - pre.length < pat.length by omega)
      have hcw : wordChar c = true := hpw _ (List.get?_mem hc)
      have hg := occ_get hdec hc
      rw [show pre.length + (w.length - pre.length) = w.length by omega] at hg
      rw [(wsfx_get_at w).1] at hg
      injection hg with hg
      rw [← hg] at hcw
      exact absurd hcw (by decide)
    · push_neg at hi
      obtain ⟨c0, hc0⟩ := pat_get_exists (show 0 < pat.length by omega)
      have hg := occ_get hdec hc0
      rw [Nat.add_zero] at hg
      have hc0w : wordChar c0 = true := hpw _ (List.get?_mem hc0)
      have hcase : pre.length = w.length + 1 ∨ pre.length = w.length + 2 ∨
          pre.length = w.length + 3 := by omega
      rcases hcase with hpl | hpl | hpl
      · rw [hpl, (wsfx_get_at w).2.1] at hg
        injection hg with hg
        rw [← hg] at hc0w
        exact absurd hc0w (by decide)
      · rw [hpl, (wsfx_get_at w).2.2.1] at hg
        injection hg with hg
        rw [← hg] at hc0w
        exact absurd hc0w (by decide)
      · obtain ⟨c1, hc1⟩ := pat_get_exists (show 1 < pat.length by omega)
        have hg1 := occ_get hdec hc1
        rw [hpl] at hg1
        rw [List.get?_eq_none.mpr
          (show (w ++ [' ', '=', ' ', '5']).length ≤ w.length + 3 + 1 by
            simp [List.length_append])] at hg1
        cases hg1
  have hpost0 : (w ++ [' ', '=', ' ', '5']).get? (pre.length + pat.length) = post.get? 0 := by
    rw [hdec, List.get?_append_right (by simp [List.length_append])]
    simp [List.length_append]
  obtain ⟨a, b, hp⟩ : ∃ a b, post = a :: b := by
    cases hpo : post with
    | nil =>
      exfalso
      rw [hpo] at hlens
      simp at hlens
      omega
    | cons a b => exact ⟨a, b, rfl⟩
  have hB : pre.length + pat.length = w.length := by
    by_contra hne2
    have hlt : pre.length + pat.length < w.length := by omega
    have hca : (w ++ [' ', '=', ' ', '5']).get? (pre.length + pat.length) = some a := by
      rw [hpost0, hp]
      rfl
    have hcw : wordChar a = true := by
      rw [List.get?_append hlt] at hca
      exact hw _ (List.get?_mem hca)
    rw [hp] at hbr
    simp [bdryR, hcw] at hbr
  by_cases hpre : pre = []
  · subst hpre
    simp at hB
    rw [List.nil_append] at hdec
    have hinj := List.append_inj hdec.symm hB
    exact hne hinj.1
  · obtain ⟨c, hc1, hc2⟩ := lastOr_get hpre none
    have hprelen : 1 ≤ pre.length := by
      cases hpp : pre with
      | nil => exact absurd hpp hpre
      | cons u v => simp
    have hg : (w ++ [' ', '=', ' ', '5']).get? (pre.length - 1) = some c := by
      rw [hdec, List.append_assoc, List.get?_append (by omega)]
      exact hc2
    have hcw : wordChar c = true := by
      rw [List.get?_append (by omega)] at hg
      exact hw _ (List.get?_mem hg)
    rw [hc1] at hbl
    simp [bdryL, hcw] at hbl

lemma no_occ_space_in_word {pat w : List Char} (hw : ∀ c ∈ w, wordChar c = true)
    (hsp : ' ' ∈ pat) : ¬ PlainOcc pat w := by
  rintro ⟨pre, post, hdec⟩
  have hmem : (' ' : Char) ∈ w := by
    rw [hdec]
    simp [hsp]
  have := hw _ hmem
  exact absurd this (by decide)

lemma no_boc_word_in_word {pat w : List Char} (hw : ∀ c ∈ w, wordChar c = true)
    (hne : pat ≠ w) : ¬ BOcc pat none w := by
  rintro ⟨pre, post, hdec, hbl, hbr⟩
  by_cases hpre : pre = []
  · by_cases hpost : post = []
    · subst hpre
      subst hpost
      simp at hdec
      exact hne hdec.symm
    · obtain ⟨a, b, hp⟩ : ∃ a b, post = a :: b := by
        cases hpo : post with
        | nil => exact absurd hpo hpost
        | cons a b => exact ⟨a, b, rfl⟩
      have haw : wordChar a = true := hw a (by rw [hdec, hp]; simp)
      rw [hp] at hbr
      simp [bdryR, haw] at hbr
  · obtain ⟨c, hc1, hc2⟩ := lastOr_get hpre none
    have hcw : wordChar c = true := by
      apply hw c
      rw [hdec]
      have := List.get?_mem hc2
      simp [this]
    rw [hc1] at hbl
    simp [bdryL, hcw] at hbl

lemma bocc_plain {pat : List Char} {prev : Option Char} {s : List Char}
    (h : BOcc pat prev s) : PlainOcc pat s := by
  obtain ⟨pre, post, hdec, _, _⟩ := h
  exact ⟨pre, post, hdec⟩

lemma wsWordsAux_nonspace {w : List Char} (hw : ∀ c ∈ w, pySpace c = false) :
    ∀ (cur s : List Char), wsWordsAux cur (w ++ s) = wsWordsAux (w.reverse ++ cur) s := by
  induction w with
  | nil => intro cur s; simp
  | cons c rest ih =>
    intro cur s
    have hc : pySpace c = false := hw c (by simp)
    simp only [List.cons_append, wsWordsAux, hc, Bool.false_eq_true, if_false]
    exact (ih (fun d hd => hw d (by simp [hd])) (c :: cur) s).trans
      (congrArg (fun l => wsWordsAux l s) (by simp))

lemma wsWords_wsfx {w : List Char} (hw : ∀ c ∈ w, pySpace c = false) (hne : w ≠ []) :
    wsWords (w ++ [' ', '=', ' ', '5']) = [w, ['='], ['5']] := by
  unfold wsWords
  rw [wsWordsAux_nonspace hw [] [' ', '=', ' ', '5']]
  have hcur : (w.reverse ++ []).isEmpty = false := by
    simp [List.isEmpty_iff, hne]
  simp only [List.append_nil] at hcur ⊢
  simp [wsWordsAux, hcur, List.isEmpty_iff, pySpace]

lemma wsWords_word {w : List Char} (hw : ∀ c ∈ w, pySpace c = false) (hne : w ≠ []) :
    wsWords w = [w] := by
  unfold wsWords
  have h0 := wsWordsAux_nonspace hw [] []
  rw [List.append_nil] at h0
  rw [h0]
  have hcur : (w.reverse ++ []).isEmpty = false := by
    simp [List.isEmpty_iff, hne]
  simp only [List.append_nil] at hcur
  simp [wsWordsAux, hcur]

lemma joinWords_wsfx (w : List Char) :
    joinWords [w, ['='], ['5']] = w ++ [' ', '=', ' ', '5'] := by
  simp [joinWords]

lemma dropWhile_cons_false {p : Char → Bool} {c : Char} {l : List Char} (h : p c = false) :
    (c :: l).dropWhile p = c :: l := by
  simp [List.dropWhile, h]

lemma strip_word_space {w : List Char} (hw : ∀ c ∈ w, pySpace c = false) (hne : w ≠ []) :
    stripList (w ++ [' ']) = w := by
  obtain ⟨c, t, hct⟩ : ∃ c t, w = c :: t := by
    cases hw2 : w with
    | nil => exact absurd hw2 hne
    | cons c t => exact ⟨c, t, rfl⟩
  obtain ⟨d, u, hdu⟩ : ∃ d u, w.reverse = d :: u := by
    cases hw3 : w.reverse with
    | nil => exact absurd (by simpa using congrArg List.reverse hw3) hne
    | cons d u => exact ⟨d, u, rfl⟩
  have hd_mem : d ∈ w := by
    have : d ∈ w.reverse := by rw [hdu]; simp
    simpa using this
  unfold stripList
  rw [hct, List.cons_append, dropWhile_cons_false (hw c (by simp [hct])), ← List.cons_append,
    ← hct]
  rw [List.reverse_append]
  simp only [List.reverse_cons, List.reverse_nil, List.nil_append, List.singleton_append]
  rw [List.dropWhile_cons]
  simp only [show pySpace ' ' = true by decide, if_true]
  rw [hdu, dropWhile_cons_false (hw d hd_mem), ← hdu, List.reverse_reverse]

lemma startsDoubleEq_cons_ne {c : Char} {l : List Char} (h : c ≠ '=') :
    startsDoubleEq (c :: l) = false := by
  cases l with
  | nil => rfl
  | cons d t =>
    simp [startsDoubleEq, h]

lemma hasDoubleEq_wsfx {w : List Char} (hw : ∀ c ∈ w, wordChar c = true) :
    hasDoubleEq (w ++ [' ', '=', ' ', '5']) = false := by
  induction w with
  | nil => rfl
  | cons c rest ih =>
    have hc : c ≠ '=' := wordChar_ne_eq (hw c (by simp))
    simp only [List.cons_append, hasDoubleEq]
    show (startsDoubleEq (c :: (rest ++ [' ', '=', ' ', '5'])) ||
      hasDoubleEq (rest ++ [' ', '=', ' ', '5'])) = false
    rw [ih (fun d hd => hw d (by simp [hd])), startsDoubleEq_cons_ne hc]
    rfl

lemma eq_not_in_word {w : List Char} (hw : ∀ c ∈ w, wordChar c = true) : '=' ∉ w :=
  fun hmem => absurd (hw _ hmem) (by decide)

lemma hasEqChar_word_false {w : List Char} (hw : ∀ c ∈ w, wordChar c = true) :
    hasEqChar w = false := by
  cases hh : hasEqChar w
  · rfl
  · exfalso
    have : '=' ∈ w := by
      simpa [hasEqChar, List.contains, List.elem_iff] using hh
    exact eq_not_in_word hw this

lemma lowerStr_append_sfx (v : List Char) :
    lowerStr (v ++ [' ', '=', ' ', '5']) = lowerStr v ++ [' ', '=', ' ', '5'] := by
  unfold lowerStr
  rw [List.map_append]
  rfl

lemma lowerStr_word {v : List Char} (hv : ∀ c ∈ v, wordChar c = true) :
    ∀ c ∈ lowerStr v, wordChar c = true := by
  intro c hc
  obtain ⟨d, hd, rfl⟩ := List.mem_map.mp hc
  exact wordChar_toLower (hv d hd)

lemma lowerStr_ne_nil {v : List Char} (hne : v ≠ []) : lowerStr v ≠ [] := by
  simp [lowerStr, hne]

/-- After lower-casing, none of the remaining `preprocess_expression` passes
touches `w ++ " = 5"` when `w` is a word (all word characters) different from
the whole-word-rewritten keywords. -/
lemma preprocessList_wsfx {v : List Char} (hv : ∀ c ∈ v, wordChar c = true) (hne : v ≠ [])
    (hk1 : lowerStr v ≠ "power".data) (hk2 : lowerStr v ≠ "times".data)
    (hk3 : lowerStr v ≠ "the".data) (hk4 : lowerStr v ≠ "of".data) :
    preprocessList (v ++ [' ', '=', ' ', '5']) = lowerStr v ++ [' ', '=', ' ', '5'] := by
  have hw : ∀ c ∈ lowerStr v, wordChar c = true := lowerStr_word hv
  have hwne : lowerStr v ≠ [] := lowerStr_ne_nil hne
  have hwsp : ∀ c ∈ lowerStr v, pySpace c = false :=
    fun c hc => wordChar_not_space (hw c hc)
  have h2 : ¬ BOcc "to the power of".data none (lowerStr v ++ [' ', '=', ' ', '5']) :=
    fun h => no_occ_space_pat hw
      (show "to the power of".data.get? 2 = some ' ' from rfl)
      (show "to the power of".data.get? (2 + 1) = some 't' from rfl)
      (by decide) (by decide) (bocc_plain h)
  have h3 : ¬ BOcc "to the power".data none (lowerStr v ++ [' ', '=', ' ', '5']) :=
    fun h => no_occ_space_pat hw
      (show "to the power".data.get? 2 = some ' ' from rfl)
      (show "to the power".data.get? (2 + 1) = some 't' from rfl)
      (by decide) (by decide) (bocc_plain h)
  have h4 : ¬ BOcc "power of".data none (lowerStr v ++ [' ', '=', ' ', '5']) :=
    fun h => no_occ_space_pat hw
      (show "power of".data.get? 5 = some ' ' from rfl)
      (show "power of".data.get? (5 + 1) = some 'o' from rfl)
      (by decide) (by decide) (bocc_plain h)
  have h5 : ¬ BOcc "power".data none (lowerStr v ++ [' ', '=', ' ', '5']) :=
    no_boc_word_pat hw (by decide) (by decide) (Ne.symm hk1)
  have h6 : ¬ PlainOcc sqrtPat (lowerStr v ++ [' ', '=', ' ', '5']) :=
    no_occ_space_pat hw
      (show sqrtPat.get? 6 = some ' ' from rfl)
      (show sqrtPat.get? (6 + 1) = some 'r' from rfl)
      (by decide) (by decide)
  have h7 : ¬ PlainOcc factPat (lowerStr v ++ [' ', '=', ' ', '5']) :=
    no_occ_space_pat hw
      (show factPat.get? 9 = some ' ' from rfl)
      (show factPat.get? (9 + 1) = some 'o' from rfl)
      (by decide) (by decide)
  have h10 : ¬ PlainOcc "divided by".data (lowerStr v ++ [' ', '=', ' ', '5']) :=
    no_occ_space_pat hw
      (show "divided by".data.get? 7 = some ' ' from rfl)
      (show "divided by".data.get? (7 + 1) = some 'b' from rfl)
      (by decide) (by decide)
  have h11 : ¬ PlainOcc "multiplied by".data (lowerStr v ++ [' ', '=', ' ', '5']) :=
    no_occ_space_pat hw
      (show "multiplied by".data.get? 10 = some ' ' from rfl)
      (show "multiplied by".data.get? (10 + 1) = some 'b' from rfl)
      (by decide) (by decide)
  have h12 : ¬ BOcc "times".data none (lowerStr v ++ [' ', '=', ' ', '5']) :=
    no_boc_word_pat hw (by decide) (by decide) (Ne.symm hk2)
  have h13 : ¬ BOcc "the".data none (lowerStr v ++ [' ', '=', ' ', '5']) :=
    no_boc_word_pat hw (by decide) (by decide) (Ne.symm hk3)
  have h14 : ¬ BOcc "of".data none (lowerStr v ++ [' ', '=', ' ', '5']) :=
    no_boc_word_pat hw (by decide) (by decide) (Ne.symm hk4)
  unfold preprocessList
  rw [lowerStr_append_sfx, subst_id_b _ h2, subst_id_b _ h3, subst_id_b _ h4,
    subst_id_b _ h5, sqrtSub_id h6, factSub_id h7, subst_self _ _, subst_self _ _,
    subst_id_plain _ h10, subst_id_plain _ h11, subst_id_b _ h12, subst_id_b _ h13,
    subst_id_b _ h14, wsWords_wsfx hwsp hwne, joinWords_wsfx]

/-- None of the passes touches a bare word different from the rewritten
keywords; `preprocess_expression` only lower-cases it. -/
lemma preprocessList_word {v : List Char} (hv : ∀ c ∈ v, wordChar c = true) (hne : v ≠ [])
    (hk1 : lowerStr v ≠ "power".data) (hk2 : lowerStr v ≠ "times".data)
    (hk3 : lowerStr v ≠ "the".data) (hk4 : lowerStr v ≠ "of".data) :
    preprocessList v = lowerStr v := by
  have hw : ∀ c ∈ lowerStr v, wordChar c = true := lowerStr_word hv
  have hwne : lowerStr v ≠ [] := lowerStr_ne_nil hne
  have hwsp : ∀ c ∈ lowerStr v, pySpace c = false :=
    fun c hc => wordChar_not_space (hw c hc)
  have h2 : ¬ BOcc "to the power of".data none (lowerStr v) :=
    fun h => no_occ_space_in_word hw (by decide) (bocc_plain h)
  have h3 : ¬ BOcc "to the power".data none (lowerStr v) :=
    fun h => no_occ_space_in_word hw (by decide) (bocc_plain h)
  have h4 : ¬ BOcc "power of".data none (lowerStr v) :=
    fun h => no_occ_space_in_word hw (by decide) (bocc_plain h)
  have h5 : ¬ BOcc "power".data none (lowerStr v) :=
    no_boc_word_in_word hw (Ne.symm hk1)
  have h6 : ¬ PlainOcc sqrtPat (lowerStr v) := no_occ_space_in_word hw (by decide)
  have h7 : ¬ PlainOcc factPat (lowerStr v) := no_occ_space_in_word hw (by decide)
  have h10 : ¬ PlainOcc "divided by".data (lowerStr v) :=
    no_occ_space_in_word hw (by decide)
  have h11 : ¬ PlainOcc "multiplied by".data (lowerStr v) :=
    no_occ_space_in_word hw (by decide)
  have h12 : ¬ BOcc "times".data none (lowerStr v) :=
    no_boc_word_in_word hw (Ne.symm hk2)
  have h13 : ¬ BOcc "the".data none (lowerStr v) :=
    no_boc_word_in_word hw (Ne.symm hk3)
  have h14 : ¬ BOcc "of".data none (lowerStr v) :=
    no_boc_word_in_word hw (Ne.symm hk4)
  unfold preprocessList
  rw [subst_id_b _ h2, subst_id_b _ h3, subst_id_b _ h4,
    subst_id_b _ h5, sqrtSub_id h6, factSub_id h7, subst_self _ _, subst_self _ _,
    subst_id_plain _ h10, subst_id_plain _ h11, subst_id_b _ h12, subst_id_b _ h13,
    subst_id_b _ h14, wsWords_word hwsp hwne]
  rfl

lemma tokenize_ident {c : Char} {rest : List Char} (hc : identStart c = true)
    (hrest : ∀ d ∈ rest, wordChar d = true)
    (hkw : isPyKeyword ⟨c :: rest⟩ = false) :
    tokenizeAux (rest.length + 2) (c :: rest) = .ok [.nameTok ⟨c :: rest⟩] := by
  have hsp : pySpace c = false := wordChar_not_space (identStart_wordChar hc)
  have htake : rest.takeWhile wordChar = rest :=
    List.takeWhile_eq_self_iff.mpr (fun x hx => hrest x hx)
  have hdrop : rest.dropWhile wordChar = [] :=
    List.dropWhile_eq_nil_iff.mpr (fun x hx => hrest x hx)
  simp only [tokenizeAux, hsp, Bool.false_eq_true, if_false, hc, if_true, htake, hdrop,
    hkw]
  rfl

lemma parse_single_name (s : String) :
    parseL 20 0 [.nameTok s] = .ok (.nameE s, []) := rfl

lemma evalStr_ident {c : Char} {rest : List Char} (hc : identStart c = true)
    (hrest : ∀ d ∈ rest, wordChar d = true)
    (hkw : isPyKeyword ⟨c :: rest⟩ = false)
    (hdbg : (⟨c :: rest⟩ : String) ≠ "__debug__") (vars : List (String × PyVal)) :
    evalStr ⟨c :: rest⟩ vars =
      (match lookupScope vars ⟨c :: rest⟩ with
       | some v => .ok v
       | none => .error (.nameErr ⟨c :: rest⟩)) := by
  unfold evalStr parseExprStr
  rw [show (⟨c :: rest⟩ : String).length + 1 = rest.length + 2 from rfl]
  rw [tokenize_ident hc hrest hkw]
  show (if (⟨c :: rest⟩ : String) = "__debug__" then Except.ok (PyVal.boolV true)
        else match lookupScope vars ⟨c :: rest⟩ with
             | some v => Except.ok v
             | none => Except.error (EvalErr.nameErr ⟨c :: rest⟩)) = _
  rw [if_neg hdbg]

/-! ## Claim theorems -/

/-- C1: the claim's safety invariant fails on the code.  The adversarial
expression string `().__class__` (left intact by preprocessing, containing no
name at all) evaluates through the restricted `eval` to the host type object
`<class 'tuple'>` — a host-introspection result, not a classified
`UnknownNameError`.  This is the first link of the documented
`__class__`/`__bases__`/`__subclasses__` escape chain from a whitelisted
`eval`, so the allow-listed scope is not the only reachable capability. -/
theorem C1_introspection_reaches_host_type :
    evaluate_expression "().__class__" [] = (.val (.typeV "tuple"), []) ∧
    isErrResult (evaluate_expression "().__class__" []).1 = false :=
  ⟨rfl, rfl⟩

/-- C2 counterexample: `1x` fails identifier syntax, yet
`evaluate("1x = 5")` performs the binding and returns an acknowledgment
instead of an "invalid variable name" error — the table is mutated. -/
theorem C2_cex_invalid_lhs_bound :
    specIdent "1x" = false ∧
    evaluate_expression "1x = 5" [] = (.ack "1x" (.intV 5), [("1x", .intV 5)]) :=
  ⟨rfl, rfl⟩

/-- C2 amended: `evaluate_expression` performs no identifier-syntax
validation of the assignment left-hand side.  Whenever the preprocessed
input is in assignment form and the right-hand side evaluates successfully,
the stripped left-hand side — identifier or not — is bound and
acknowledged. -/
theorem C2_amended_no_lhs_validation (s : String) (vars : List (String × PyVal))
    (hdet : (hasEqChar (preprocessList s.data) && !hasDoubleEq (preprocessList s.data)) = true)
    (v : PyVal)
    (hev : evalStr ⟨stripList (splitEqAux (preprocessList s.data)).2⟩ vars = .ok v) :
    evaluate_expression s vars =
      (.ack ⟨stripList (splitEqAux (preprocessList s.data)).1⟩ v,
       insertVar ⟨stripList (splitEqAux (preprocessList s.data)).1⟩ v vars) := by
  rw [evaluate_expression_of_detect_true s vars hdet]
  unfold evalAssign
  rw [hev]

/-- C2 amended, witness: at the concrete non-identifier left-hand side
`1x`. -/
theorem C2_amended_no_lhs_validation_witness :
    evaluate_expression "1x = 5" [] = (.ack "1x" (.intV 5), [("1x", .intV 5)]) :=
  C2_amended_no_lhs_validation "1x = 5" [] rfl (.intV 5) rfl

/-- C3: the claim's containment guarantee fails on the code.  The
module-level lambdas `sind`/`cosd`/`tand` carried by the registry expose
`__globals__` — the *live module dict*, holding (among others) the
`variables` table itself and the real `__builtins__` module — and the
expression `sind.__globals__` reaches it through the restricted `eval`
without any error.  Proved here is that first link; from it the two
hand-traced escapes follow on the host: (i)
`(sind.__globals__['variables'].update({'z': 1}), q)` mutates the table
*before* the `NameError` on `q` is caught, so a caught error does not imply
a preserved state; (ii) `sind.__globals__['__builtins__'].exit(0)` raises
`SystemExit`, which `except Exception` does not catch — an input whose
exception escapes the wrapper entirely. -/
theorem C3_globals_escape_reaches_live_module :
    evaluate_expression "sind.__globals__" [] = (.val .globalsV, []) ∧
    isErrResult (evaluate_expression "sind.__globals__" []).1 = false ∧
    getAttr (.funV "sind") "__globals__" = .ok .globalsV ∧
    getAttr (.funV "sqrt") "__globals__" = .error (.attrErr "__globals__") :=
  ⟨rfl, rfl, rfl, rfl⟩

/-- C4 counterexample: on `x = 2 == 2` the spec's detection predicate (a `=`
not part of an `==` token) holds, but the code's `"==" not in expr` test
vetoes the assignment and the whole string is evaluated as an expression,
producing a syntax error and no binding — not the assignment the claim
requires. -/
theorem C4_cex_double_eq_suppresses_assignment :
    claimTopLevelEq (preprocessList "x = 2 == 2".data) = true ∧
    (hasEqChar (preprocessList "x = 2 == 2".data) &&
      !hasDoubleEq (preprocessList "x = 2 == 2".data)) = false ∧
    evaluate_expression "x = 2 == 2" [] = (.err .syntaxErr, []) :=
  ⟨rfl, rfl, rfl⟩

/-- C4 amended: the code treats the input as an assignment iff the
preprocessed string contains `=` and does not contain `==` *anywhere* (not
merely at the detected `=`); in that case it splits at the first `=`;
otherwise the whole string is evaluated as a plain expression. -/
theorem C4_amended_assignment_detection (s : String) (vars : List (String × PyVal)) :
    ((hasEqChar (preprocessList s.data) && !hasDoubleEq (preprocessList s.data)) = false →
      evaluate_expression s vars = evalPlain (preprocessList s.data) vars) ∧
    (hasDoubleEq (preprocessList s.data) = false →
      ∀ pre post, preprocessList s.data = pre ++ '=' :: post → '=' ∉ pre →
        evaluate_expression s vars =
          (match evalStr ⟨stripList post⟩ vars with
           | .ok r => (.ack ⟨stripList pre⟩ r, insertVar ⟨stripList pre⟩ r vars)
           | .error e => (.err e, vars))) := by
  constructor
  · exact evaluate_expression_of_detect_false s vars
  · intro hdbl pre post hdecomp hpre
    have heq : hasEqChar (preprocessList s.data) = true :=
      hasEqChar_of_mem (by rw [hdecomp]; simp)
    rw [evaluate_expression_of_detect_true s vars (by rw [heq, hdbl]; rfl)]
    unfold evalAssign
    rw [hdecomp, splitEqAux_first hpre]

/-- C4 amended, witness: `x = 1` splits at its only `=` into `x` and `1` and
binds; `2 == 2` (no lone `=`) takes the plain branch. -/
theorem C4_amended_assignment_detection_witness :
    evaluate_expression "x = 1" [] = (.ack "x" (.intV 1), [("x", .intV 1)]) ∧
    evaluate_expression "2 == 2" [] = (.val (.boolV true), []) := by
  constructor
  · have h := (C4_amended_assignment_detection "x = 1" []).2 rfl
      "x ".data " 1".data rfl (by decide)
    simpa using h
  · have h := (C4_amended_assignment_detection "2 == 2" []).1 rfl
    simpa using h

/-- C5: division, floor division and modulus resolve a zero divisor to the
classified `ZeroDivisionError` for every numeric dividend, `evaluate("10 /
0")` returns that classification, and the fixed-operator CLI's `calculate`
returns its division-by-zero message for `/` and `~`. -/
theorem C5_division_by_zero_classified :
    (∀ a : Int, evalBin "/" (.intV a) (.intV 0) = .error .zeroDiv) ∧
    (∀ a : Int, evalBin "//" (.intV a) (.intV 0) = .error .zeroDiv) ∧
    (∀ a : Int, evalBin "%" (.intV a) (.intV 0) = .error .zeroDiv) ∧
    (∀ q : ℚ, evalBin "/" (.floatV q) (.floatV 0) = .error .zeroDiv) ∧
    evaluate_expression "10 / 0" [] = (.err .zeroDiv, []) ∧
    calculate "10" '/' "0" = .ok .divZeroMsg ∧
    calculate "7" '~' "0" = .ok .divZeroMsg := by
  refine ⟨fun a => ?_, fun a => ?_, fun a => ?_, fun q => ?_, rfl, rfl, rfl⟩
  · simp [evalBin, asQ]
  · simp [evalBin, asInt]
  · simp [evalBin, asInt]
  · simp [evalBin, asQ]

/-- C6 counterexample: two names outside the claimed union are resolvable
during evaluation.  `__builtins__` is neither a registry entry nor a
variable, yet resolves to the extra key of the globals dict
`{"__builtins__": {}}` passed to `eval`; and `__debug__` is compile-time
folded to `True` — it resolves with an empty table, and even a same-named
`VariableTable` entry fails to shadow it, breaking the claimed
variable-precedence rule as well. -/
theorem C6_cex_builtins_outside_union :
    List.lookup "__builtins__" safe_functions = none ∧
    lookupScope [] "__builtins__" = some .dictV ∧
    evaluate_expression "__builtins__" [] = (.val .dictV, []) ∧
    List.lookup "__debug__" safe_functions = none ∧
    evaluate_expression "__debug__" [] = (.val (.boolV true), []) ∧
    evaluate_expression "__debug__" [("__debug__", .intV 7)] =
      (.val (.boolV true), [("__debug__", .intV 7)]) :=
  ⟨rfl, rfl, rfl, rfl, rfl, rfl⟩

/-- C6 amended: name resolution is the union of the `VariableTable` (which
takes precedence), the `FunctionRegistry`, and exactly two extra names:
`__builtins__` (bound to the empty builtins dict by eval's globals) and
`__debug__` (compile-time folded to `True`, and therefore resolvable even
when absent from every dict — and, unlike every other name, *not* shadowed
by a same-named `VariableTable` entry); any other name is a `NameError`. -/
theorem C6_amended_scope_resolution (vars : List (String × PyVal)) (n : String) (fuel : Nat) :
    (n ≠ "__debug__" → ∀ v, List.lookup n vars = some v →
      evalE (fuel + 1) vars (.nameE n) = .ok v) ∧
    (List.lookup n vars = none → ∀ v, List.lookup n safe_functions = some v →
      evalE (fuel + 1) vars (.nameE n) = .ok v) ∧
    (List.lookup n vars = none → List.lookup n safe_functions = none →
      n ≠ "__builtins__" → n ≠ "__debug__" →
      evalE (fuel + 1) vars (.nameE n) = .error (.nameErr n)) ∧
    (List.lookup n vars = none → List.lookup n safe_functions = none →
      n = "__builtins__" → evalE (fuel + 1) vars (.nameE n) = .ok .dictV) ∧
    (∀ w, evalE (fuel + 1) vars (.nameE "__debug__") = .ok (.boolV true) ∧
      evalE (fuel + 1) (("__debug__", w) :: vars) (.nameE "__debug__") =
        .ok (.boolV true)) := by
  refine ⟨fun hdbg v hv => ?_, fun h0 v hv => ?_, fun h0 h1 hne hdbg => ?_,
    fun h0 h1 he => ?_, fun w => ⟨?_, ?_⟩⟩
  · simp [evalE, lookupScope, hv, hdbg]
  · have hdbg : n ≠ "__debug__" := by
      intro he
      subst he
      rw [show List.lookup "__debug__" safe_functions = none from rfl] at hv
      cases hv
    simp [evalE, lookupScope, h0, hv, hdbg]
  · simp [evalE, lookupScope, h0, h1, hne, hdbg]
  · subst he
    simp [evalE, lookupScope, h0, h1]
  · simp [evalE]
  · simp [evalE]

/-- C6 amended, witness: a variable named `pi` shadows the registry constant
`pi` during lookup. -/
theorem C6_amended_scope_resolution_witness :
    evalE 1 [("pi", .intV 3)] (.nameE "pi") = .ok (.intV 3) ∧
    List.lookup "pi" safe_functions = some (.constV "pi") :=
  ⟨(C6_amended_scope_resolution [("pi", .intV 3)] "pi" 0).1 (by decide) (.intV 3) rfl, rfl⟩

/-- C7: the two spec examples hold exactly: `normalize` rewrites
`square root of 16` to `sqrt(16)` and `2 to the power of 5` to `2 ** 5`, and
chaining through `evaluate` with an empty table yields `4` (as the float
`4.0`, exact) and the integer `32`. -/
theorem C7_normalize_evaluate_examples :
    preprocess_expression "square root of 16" = "sqrt(16)" ∧
    evaluate_expression "sqrt(16)" [] = (.val (.floatV 4), []) ∧
    evaluate_expression "square root of 16" [] = (.val (.floatV 4), []) ∧
    preprocess_expression "2 to the power of 5" = "2 ** 5" ∧
    evaluate_expression "2 ** 5" [] = (.val (.intV 32), []) ∧
    evaluate_expression "2 to the power of 5" [] = (.val (.intV 32), []) :=
  ⟨rfl, rfl, rfl, rfl, rfl, rfl⟩

/-- C8 counterexample: the `divided by` pass has no `\b` anchors, so the
phrase is rewritten even when `divided` sits inside the larger identifier
`undivided`: `normalize("undivided by 2")` returns `un/ 2`, not the
unchanged string the claim requires. -/
theorem C8_cex_embedded_phrase_rewritten :
    preprocess_expression "undivided by 2" = "un/ 2" ∧
    (("un/ 2" : String) == "undivided by 2") = false :=
  ⟨rfl, rfl⟩

/-- C8 amended: only the power phrases, `times`, `pi`, `e`, `the` and `of`
passes are `\b`-anchored (word-embedded occurrences survive, e.g.
`powerhouse`, and `theory` keeps its embedded `the`/`of`), with the
overlapping power phrases resolved longest-first; the `square root of`,
`factorial of`, `divided by` and `multiplied by` passes match raw substrings
and do rewrite phrases attached to larger words. -/
theorem C8_amended_boundary_behaviour :
    preprocess_expression "powerhouse" = "powerhouse" ∧
    preprocess_expression "the theory of power" = "theory **" ∧
    preprocess_expression "2 to the power of 5" = "2 ** 5" ∧
    preprocess_expression "undivided by 2" = "un/ 2" ∧
    preprocess_expression "unmultiplied by 3" = "un* 3" :=
  ⟨rfl, rfl, rfl, rfl, rfl⟩

/-- C9 counterexample: three families of uppercase identifiers break the
claimed bind-then-resolve round trip.  (i) `THE` lower-cases into the
filler-word rewrite pass: `evaluate("THE = 5")` binds the empty-string key,
not `the`, and the later reference `THE` preprocesses to the empty string
and is a syntax error.  (ii) `IF` lower-cases to the Python keyword `if`:
the assignment binds the key `if`, but the later reference — compiled by
`eval` — is a `SyntaxError`, not the bound value.  (iii) `__DEBUG__`
lower-cases to `__debug__`: the assignment binds, but the later reference is
compile-time folded to the constant `True` and never consults the table. -/
theorem C9_cex_keyword_identifier :
    specIdent "THE" = true ∧ hasUpperChar "THE" = true ∧
    evaluate_expression "THE = 5" [] = (.ack "" (.intV 5), [("", .intV 5)]) ∧
    (("" : String) == "the") = false ∧
    evaluate_expression "THE" [("", .intV 5)] = (.err .syntaxErr, [("", .intV 5)]) ∧
    specIdent "IF" = true ∧ hasUpperChar "IF" = true ∧
    evaluate_expression "IF = 5" [] = (.ack "if" (.intV 5), [("if", .intV 5)]) ∧
    evaluate_expression "IF" [("if", .intV 5)] =
      (.err .syntaxErr, [("if", .intV 5)]) ∧
    specIdent "__DEBUG__" = true ∧ hasUpperChar "__DEBUG__" = true ∧
    evaluate_expression "__DEBUG__ = 5" [] =
      (.ack "__debug__" (.intV 5), [("__debug__", .intV 5)]) ∧
    evaluate_expression "__DEBUG__" [("__debug__", .intV 5)] =
      (.val (.boolV true), [("__debug__", .intV 5)]) :=
  ⟨rfl, rfl, rfl, rfl, rfl, rfl, rfl, rfl, rfl, rfl, rfl, rfl, rfl⟩

/-- C9 amended: lower-casing happens before assignment detection, so for
every identifier whose lower-cased form is not one of the whole-word
rewritten keywords (`power`, `times`, `the`, `of`), not a Python hard
keyword, and not `__debug__`, an assignment `V = 5` binds the lower-cased
key, the acknowledgment reports the lower-cased name, and later references
through the original spelling or the lower-cased one resolve to that
binding.  Identifiers lower-casing to a rewritten keyword are further
rewritten; ones lower-casing to a hard keyword bind but fail to resolve
(`SyntaxError`); `__DEBUG__` binds but resolves to the folded constant
`True` — all three escapes are in the counterexample. -/
theorem C9_amended_lowercase_binding (v : String)
    (hid : specIdent v = true) (_hup : hasUpperChar v = true)
    (hk1 : lowerPy v ≠ "power") (hk2 : lowerPy v ≠ "times")
    (hk3 : lowerPy v ≠ "the") (hk4 : lowerPy v ≠ "of")
    (hk5 : isPyKeyword (lowerPy v) = false) (hk6 : lowerPy v ≠ "__debug__") :
    evaluate_expression (v ++ " = 5") [] =
      (.ack (lowerPy v) (.intV 5), [(lowerPy v, .intV 5)]) ∧
    evaluate_expression v [(lowerPy v, .intV 5)] =
      (.val (.intV 5), [(lowerPy v, .intV 5)]) ∧
    evaluate_expression (lowerPy v) [(lowerPy v, .intV 5)] =
      (.val (.intV 5), [(lowerPy v, .intV 5)]) := by
  obtain ⟨c, rest, hv, hc, hrest⟩ :
      ∃ c rest, v.data = c :: rest ∧ identStart c = true ∧
        ∀ d ∈ rest, wordChar d = true := by
    unfold specIdent at hid
    cases hd : v.data with
    | nil => rw [hd] at hid; cases hid
    | cons c rest =>
      rw [hd] at hid
      simp only [Bool.and_eq_true, List.all_eq_true] at hid
      exact ⟨c, rest, rfl, hid.1, fun d hd2 => hid.2 d hd2⟩
  have hvall : ∀ d ∈ v.data, wordChar d = true := by
    rw [hv]
    intro d hd2
    rcases List.mem_cons.mp hd2 with rfl | hmem
    · exact identStart_wordChar hc
    · exact hrest d hmem
  have hvne : v.data ≠ [] := by rw [hv]; simp
  have hq1 : lowerStr v.data ≠ "power".data := fun h => hk1 (congrArg String.mk h)
  have hq2 : lowerStr v.data ≠ "times".data := fun h => hk2 (congrArg String.mk h)
  have hq3 : lowerStr v.data ≠ "the".data := fun h => hk3 (congrArg String.mk h)
  have hq4 : lowerStr v.data ≠ "of".data := fun h => hk4 (congrArg String.mk h)
  have hw : ∀ d ∈ lowerStr v.data, wordChar d = true := lowerStr_word hvall
  have hwne : lowerStr v.data ≠ [] := lowerStr_ne_nil hvne
  have hwsp : ∀ d ∈ lowerStr v.data, pySpace d = false :=
    fun d hd2 => wordChar_not_space (hw d hd2)
  have hlowshape : lowerStr v.data = c.toLower :: lowerStr rest := by
    rw [hv]; rfl
  have hkeyg : (⟨c.toLower :: lowerStr rest⟩ : String) = lowerPy v := by
    show _ = (⟨lowerStr v.data⟩ : String)
    rw [hlowshape]
  have hkw5 : isPyKeyword ⟨c.toLower :: lowerStr rest⟩ = false := by
    rw [hkeyg]; exact hk5
  have hdbg6 : (⟨c.toLower :: lowerStr rest⟩ : String) ≠ "__debug__" := by
    rw [hkeyg]; exact hk6
  refine ⟨?_, ?_, ?_⟩
  · -- the assignment "V = 5"
    have hdata : (v ++ " = 5").data = v.data ++ [' ', '=', ' ', '5'] := by
      rw [String.data_append]
    have hpre : preprocessList (v ++ " = 5").data =
        lowerStr v.data ++ [' ', '=', ' ', '5'] := by
      rw [hdata]
      exact preprocessList_wsfx hvall hvne hq1 hq2 hq3 hq4
    have hdet : (hasEqChar (preprocessList (v ++ " = 5").data) &&
        !hasDoubleEq (preprocessList (v ++ " = 5").data)) = true := by
      rw [hpre, hasEqChar_of_mem (by simp), hasDoubleEq_wsfx hw]
      rfl
    rw [evaluate_expression_of_detect_true _ _ hdet]
    unfold evalAssign
    rw [hpre]
    rw [show lowerStr v.data ++ [' ', '=', ' ', '5'] =
        (lowerStr v.data ++ [' ']) ++ '=' :: [' ', '5'] by simp]
    have hnoeq : '=' ∉ lowerStr v.data ++ [' '] := by
      intro hmem
      rcases List.mem_append.mp hmem with hmem2 | hmem2
      · exact eq_not_in_word hw hmem2
      · simp at hmem2
    rw [splitEqAux_first hnoeq [' ', '5']]
    dsimp only
    rw [strip_word_space hwsp hwne]
    rw [show stripList [' ', '5'] = ['5'] from rfl]
    rw [show evalStr ⟨['5']⟩ [] = Except.ok (PyVal.intV 5) from rfl]
    rfl
  · -- the reference "V"
    have hprew : preprocessList v.data = lowerStr v.data :=
      preprocessList_word hvall hvne hq1 hq2 hq3 hq4
    have hdetf : (hasEqChar (preprocessList v.data) &&
        !hasDoubleEq (preprocessList v.data)) = false := by
      rw [hprew, hasEqChar_word_false hw]
      rfl
    rw [evaluate_expression_of_detect_false _ _ hdetf]
    unfold evalPlain
    rw [hprew, hlowshape]
    rw [evalStr_ident (identStart_toLower hc)
      (fun d hd2 => by
        obtain ⟨e, he, rfl⟩ := List.mem_map.mp hd2
        exact wordChar_toLower (hrest e he)) hkw5 hdbg6]
    rw [hkeyg]
    simp [lookupScope, List.lookup]
  · -- the reference by the lower-cased name
    have hdata2 : (lowerPy v).data = lowerStr v.data := rfl
    have hlowlow : lowerStr (lowerStr v.data) = lowerStr v.data := by
      unfold lowerStr
      rw [List.map_map]
      exact List.map_congr_left (fun d _ => toLower_idem d)
    have hql1 : lowerStr (lowerPy v).data ≠ "power".data := by rw [hdata2, hlowlow]; exact hq1
    have hql2 : lowerStr (lowerPy v).data ≠ "times".data := by rw [hdata2, hlowlow]; exact hq2
    have hql3 : lowerStr (lowerPy v).data ≠ "the".data := by rw [hdata2, hlowlow]; exact hq3
    have hql4 : lowerStr (lowerPy v).data ≠ "of".data := by rw [hdata2, hlowlow]; exact hq4
    have hprew : preprocessList (lowerPy v).data = lowerStr v.data := by
      have := preprocessList_word (v := (lowerPy v).data)
        (by rw [hdata2]; exact hw) (by rw [hdata2]; exact hwne) hql1 hql2 hql3 hql4
      rw [hdata2, hlowlow] at this
      exact this
    have hdetf : (hasEqChar (preprocessList (lowerPy v).data) &&
        !hasDoubleEq (preprocessList (lowerPy v).data)) = false := by
      rw [hprew, hasEqChar_word_false hw]
      rfl
    rw [evaluate_expression_of_detect_false _ _ hdetf]
    unfold evalPlain
    rw [hprew, hlowshape]
    rw [evalStr_ident (identStart_toLower hc)
      (fun d hd2 => by
        obtain ⟨e, he, rfl⟩ := List.mem_map.mp hd2
        exact wordChar_toLower (hrest e he)) hkw5 hdbg6]
    rw [hkeyg]
    simp [lookupScope, List.lookup]

/-- C9 amended, witness: at the concrete identifier `Foo`. -/
theorem C9_amended_lowercase_binding_witness :
    evaluate_expression "Foo = 5" [] = (.ack "foo" (.intV 5), [("foo", .intV 5)]) ∧
    evaluate_expression "Foo" [("foo", .intV 5)] = (.val (.intV 5), [("foo", .intV 5)]) ∧
    evaluate_expression "foo" [("foo", .intV 5)] = (.val (.intV 5), [("foo", .intV 5)]) := by
  have h := C9_amended_lowercase_binding "Foo" (by decide) (by decide) (by decide)
    (by decide) (by decide) (by decide) (by decide) (by decide)
  exact h

end Calculator
